import Mathlib

/-!
Verification of the archive-extraction core of the Mamramic analytics
pipeline (`src_scripts/raw_to_s3.py`, class `ParallelChunkExtractor`).

The embedding models the S3 object store as a list of stored keys
(`List String`).  External collaborators are modelled by their contracts:

* downloading a zip and listing its entry names (`get_object` + `ZipFile`
  + `namelist`, lines 163-171) is a value `acquisition : Option (List String)`
  (`none` models a download or zip-format failure, which the code catches);
* a per-entry failure of `zf.read` / `put_object` for entry name `f`
  (lines 193-195, not caught anywhere inside `process_chunk`) is modelled by
  a predicate `failing : String → Bool`;
* the `list_objects_v2` paginated listing with a `Prefix=` parameter returns
  exactly the stored keys that begin with that prefix.

The upload pre-steps (`upload_local_zips`, `upload_feed_file`) write keys
under `logs/archives/...` and `feeds/...`, never under the extraction
prefix `logs/extracted/...`, so they cannot affect the existing-entry
index and are not modelled.
-/

namespace RawToS3

/-- Embeds `obj["Key"].rsplit("/", 1)[-1]` (line 102): the maximal suffix of
the key that contains no slash, i.e. the file name after the final slash
(the whole key when it has no slash). -/
def trailingName (key : String) : String :=
  String.mk ((key.toList.reverse.takeWhile (fun c => c ≠ '/')).reverse)

/-- S3 `list_objects_v2(Bucket=…, Prefix=pfx)` semantics: a stored key is
listed iff it begins with the requested prefix. -/
def keyStartsWith (key pfx : String) : Bool :=
  pfx.toList.isPrefixOf key.toList

/-- Embeds `list_extracted_files` (lines 92-104): the names (text after the
final slash) of every object already stored under the given prefix.
`destKeys` is the current content of the bucket. -/
def list_extracted_files (destKeys : List String) (pfx : String) : List String :=
  (destKeys.filter (fun k => keyStartsWith k pfx)).map trailingName

/-- Line 44: `self.extracted_base_path = "logs/extracted"`. -/
def extracted_base_path : String := "logs/extracted"

/-- Line 45: `self.extract_year = "2024"`. -/
def extract_year : String := "2024"

/-- Line 46: `self.extract_month = "01"`. -/
def extract_month : String := "01"

/-- Embeds line 176:
`target_prefix = f"{self.extracted_base_path}/{self.extract_year}/{self.extract_month}/{log_type}/"`. -/
def targetPrefixFor (log_type : String) : String :=
  (extracted_base_path ++ "/" ++ extract_year ++ "/" ++ extract_month ++ "/" ++ log_type) ++ "/"

/-- Outcome of running `process_chunk` (lines 187-197) on one chunk:
the value of `local_extracted` accumulated before any exception, the target
keys actually written by `put_object` in order, and — because no exception
is caught inside the loop — the entry name whose read/write raised, if any
(the raise ends the chunk's execution at that entry). -/
structure ChunkOutcome where
  extracted : Nat
  written : List String
  failed : Option String
deriving DecidableEq, Repr

/-- Embeds the inner worker `process_chunk` (lines 187-197).  For each entry
name in chunk order: a name in `existing` is skipped (`continue`); otherwise
the entry is read and written; a raising read/write (modelled by `failing`)
ends the chunk at that entry, since the loop body has no `try`/`except`. -/
def process_chunk (existing : List String) (pfx : String) (failing : String → Bool) :
    List String → ChunkOutcome
  | [] => ⟨0, [], none⟩
  | f :: rest =>
    if f ∈ existing then
      process_chunk existing pfx failing rest
    else if failing f then
      ⟨0, [], some f⟩
    else
      let o := process_chunk existing pfx failing rest
      ⟨o.extracted + 1, (pfx ++ f) :: o.written, o.failed⟩

/-- Embeds the chunk plan of lines 179-182:
`[all_files[i : i + chunk_size] for i in range(0, total_files, chunk_size)]`.
The stepped `range` visits `i = k * chunk_size` for
`k < ⌈total_files / chunk_size⌉`. -/
def planChunks (chunk_size : Nat) (all_files : List String) : List (List String) :=
  (List.range ((all_files.length + chunk_size - 1) / chunk_size)).map
    (fun i => (all_files.drop (i * chunk_size)).take chunk_size)

/-- Recursive form of the same chunk plan, used to prove the partition
properties of `planChunks`. -/
def chunksOf : Nat → List String → List (List String)
  | _, [] => []
  | 0, _ :: _ => []
  | n + 1, x :: xs => ((x :: xs).take (n + 1)) :: chunksOf (n + 1) (xs.drop n)
termination_by _n l => l.length
decreasing_by
  simp only [List.length_cons, List.length_drop]
  omega

/-- Embeds `_process_single_zip` (lines 158-208) for one archive.
`destKeys` is the bucket content when the archive starts.  Returns the pair
the Python function returns — `(total_files, extracted_count)`, which is
`(0, 0)` when acquisition fails, when the zip is empty, or when any chunk's
future raises (lines 206-208) — together with the keys written to the
bucket.  Writes are collected from every chunk because the executor's
context manager waits for all submitted chunks even when collecting one
result raises. -/
def process_single_zip (chunk_size : Nat) (destKeys : List String) (log_type : String)
    (acquisition : Option (List String)) (failing : String → Bool) :
    (Nat × Nat) × List String :=
  match acquisition with
  | none => ((0, 0), [])
  | some all_files =>
    if all_files.isEmpty then ((0, 0), [])
    else
      let pfx := targetPrefixFor log_type
      let existing := list_extracted_files destKeys pfx
      let outs := (planChunks chunk_size all_files).map (process_chunk existing pfx failing)
      if outs.any (fun o => o.failed.isSome) then
        ((0, 0), (outs.map (fun o => o.written)).flatten)
      else
        ((all_files.length, (outs.map (fun o => o.extracted)).sum),
         (outs.map (fun o => o.written)).flatten)

/-- Embeds the sequential loop of lines 142-148: archives are processed one
after the other, each against the bucket state left by its predecessors,
and a `(zip_key, log_type, total, extracted)` record is collected for each. -/
def runArchives (chunk_size : Nat) (acquire : String → Option (List String))
    (failing : String → Bool) :
    List (String × String) → List String →
      List (String × String × Nat × Nat) × List String
  | [], dest => ([], dest)
  | (zip_key, log_type) :: rest, dest =>
    let r := process_single_zip chunk_size dest log_type (acquire zip_key) failing
    let next := runArchives chunk_size acquire failing rest (dest ++ r.2)
    ((zip_key, log_type, r.1.1, r.1.2) :: next.1, next.2)

/-- Embeds `process_all_zips` (lines 106-156) after catalog construction:
when no zip key was found the function returns before the processing loop
and no summary is emitted (lines 138-140); otherwise every archive is
processed sequentially and the final summary (lines 150-156) holds one
record per archive.  The first component is the emitted summary
(`none` = no summary), the second the final bucket content. -/
def process_all_zips (chunk_size : Nat) (catalog : List (String × String))
    (acquire : String → Option (List String)) (failing : String → Bool)
    (destKeys : List String) :
    Option (List (String × String × Nat × Nat)) × List String :=
  if catalog.isEmpty then (none, destKeys)
  else
    let r := runArchives chunk_size acquire failing catalog destKeys
    (some r.1, r.2)

/-- A run in which no entry read/write raises. -/
def noFail : String → Bool := fun _ => false

/-- Number of chunks of an archive whose execution was ended by a raising
entry.  The code keeps no error records, so this is the only error count
derivable from its behaviour. -/
def raisedCount (outs : List ChunkOutcome) : Nat :=
  (outs.filter (fun o => o.failed.isSome)).length

/-! ### String helper lemmas -/

theorem string_data_append (s t : String) : (s ++ t).data = s.data ++ t.data := rfl

theorem string_append_cancel (pfx a b : String) (h : pfx ++ a = pfx ++ b) : a = b := by
  have hd : pfx.data ++ a.data = pfx.data ++ b.data := by
    have h2 := congrArg String.data h
    simpa [string_data_append] using h2
  have hab : a.data = b.data := List.append_cancel_left hd
  cases a with
  | mk la =>
    cases b with
    | mk lb => exact congrArg String.mk hab

theorem string_append_inj (pfx : String) :
    Function.Injective (fun f => pfx ++ f) := by
  intro a b h
  exact string_append_cancel pfx a b h

theorem takeWhile_append_cons {p : Char → Bool} (A : List Char) (b : Char) (B : List Char)
    (hA : ∀ a ∈ A, p a = true) (hb : p b = false) :
    (A ++ b :: B).takeWhile p = A := by
  induction A with
  | nil => simp [List.takeWhile_cons, hb]
  | cons x xs ih =>
    have hx : p x = true := hA x (by simp)
    simp only [List.cons_append, List.takeWhile_cons, hx, if_true]
    rw [ih (fun a ha => hA a (by simp [ha]))]

theorem trailingName_slash_append (X f : String) (hf : ('/' : Char) ∉ f.data) :
    trailingName ((X ++ "/") ++ f) = f := by
  unfold trailingName
  have hdata : ((X ++ "/") ++ f).toList = X.data ++ '/' :: f.data := by
    show ((X ++ "/") ++ f).data = X.data ++ '/' :: f.data
    rw [string_data_append, string_data_append]
    simp
  rw [hdata]
  rw [List.reverse_append]
  have hrev : ('/' :: f.data).reverse = f.data.reverse ++ ['/'] := by simp
  rw [hrev, List.append_assoc, List.singleton_append]
  have htw : (f.data.reverse ++ '/' :: X.data.reverse).takeWhile (fun c => c ≠ '/') =
      f.data.reverse := by
    apply takeWhile_append_cons
    · intro a ha
      have ha' : a ∈ f.data := List.mem_reverse.mp ha
      simp only [ne_eq, decide_eq_true_eq]
      intro heq
      exact hf (heq ▸ ha')
    · simp
  rw [htw, List.reverse_reverse]

theorem isPrefixOf_append_self (l t : List Char) : l.isPrefixOf (l ++ t) = true := by
  induction l with
  | nil => simp [List.isPrefixOf]
  | cons a as ih => simp [List.isPrefixOf, ih]

theorem keyStartsWith_append (pfx f : String) : keyStartsWith (pfx ++ f) pfx = true := by
  unfold keyStartsWith
  show pfx.data.isPrefixOf (pfx ++ f).data = true
  rw [string_data_append]
  exact isPrefixOf_append_self _ _

/-! ### Existing-entry index lemmas -/

theorem lef_append (d w : List String) (pfx : String) :
    list_extracted_files (d ++ w) pfx =
      list_extracted_files d pfx ++ list_extracted_files w pfx := by
  simp [list_extracted_files, List.filter_append]

theorem lef_mono (d w : List String) (pfx g : String)
    (h : g ∈ list_extracted_files d pfx) : g ∈ list_extracted_files (d ++ w) pfx := by
  rw [lef_append]
  exact List.mem_append_left _ h

theorem mem_lef_of_write (w : List String) (pfx key : String) (hk : key ∈ w)
    (hpfx : keyStartsWith key pfx = true) :
    trailingName key ∈ list_extracted_files w pfx := by
  simp only [list_extracted_files, List.mem_map, List.mem_filter]
  exact ⟨key, ⟨hk, hpfx⟩, rfl⟩

/-! ### `process_chunk` lemmas -/

theorem process_chunk_noFail (existing : List String) (pfx : String) (failing : String → Bool)
    (chunk : List String) (hnf : ∀ g ∈ chunk, failing g = false) :
    process_chunk existing pfx failing chunk =
      ⟨(chunk.filter (fun g => decide (g ∉ existing))).length,
       (chunk.filter (fun g => decide (g ∉ existing))).map (fun g => pfx ++ g),
       none⟩ := by
  induction chunk with
  | nil => rfl
  | cons f rest ih =>
    have ihr := ih (fun g hg => hnf g (by simp [hg]))
    by_cases hm : f ∈ existing
    · simp [process_chunk, hm, ihr, List.filter_cons]
    · have hf : failing f = false := hnf f (by simp)
      simp [process_chunk, hm, hf, ihr, List.filter_cons]

theorem process_chunk_abort (existing : List String) (pfx : String) (failing : String → Bool)
    (f : String) (rest : List String) (hm : f ∉ existing) (hf : failing f = true) :
    process_chunk existing pfx failing (f :: rest) = ⟨0, [], some f⟩ := by
  simp [process_chunk, hm, hf]

/-! ### Chunk-plan lemmas -/

theorem chunksOf_flatten (n : Nat) : ∀ l : List String, (chunksOf (n + 1) l).flatten = l
  | [] => by simp [chunksOf]
  | x :: xs => by
    have ih := chunksOf_flatten n (xs.drop n)
    simp only [chunksOf, List.flatten_cons, ih, List.take_succ_cons, List.cons_append]
    rw [List.take_append_drop]
termination_by l => l.length
decreasing_by
  simp only [List.length_cons, List.length_drop]
  omega

theorem planChunks_eq_chunksOf (n : Nat) :
    ∀ l : List String, planChunks (n + 1) l = chunksOf (n + 1) l
  | [] => by
    simp [planChunks, chunksOf, Nat.div_eq_of_lt (by omega : n < n + 1)]
  | x :: xs => by
    have ih := planChunks_eq_chunksOf n (xs.drop n)
    have hcount2 : ((x :: xs).length + (n + 1) - 1) / (n + 1) = xs.length / (n + 1) + 1 := by
      have hc : (x :: xs).length + (n + 1) - 1 = xs.length + (n + 1) := by
        simp only [List.length_cons]; omega
      rw [hc, Nat.add_div_right _ (by omega : 0 < n + 1)]
    have hk : ((xs.drop n).length + (n + 1) - 1) / (n + 1) = xs.length / (n + 1) := by
      rcases le_or_lt n xs.length with hle | hlt
      · have h1 : (xs.drop n).length + (n + 1) - 1 = xs.length := by
          simp only [List.length_drop]; omega
        rw [h1]
      · have h1 : (xs.drop n).length + (n + 1) - 1 = n := by
          simp only [List.length_drop]; omega
        rw [h1, Nat.div_eq_of_lt (by omega : n < n + 1),
          Nat.div_eq_of_lt (by omega : xs.length < n + 1)]
    simp only [chunksOf]
    rw [← ih]
    unfold planChunks
    rw [hcount2, hk, List.range_succ_eq_map, List.map_cons, List.map_map]
    congr 1
    · simp
    · apply List.map_congr_left
      intro i hi
      simp only [Function.comp]
      have hdrop : (x :: xs).drop (Nat.succ i * (n + 1)) =
          (xs.drop n).drop (i * (n + 1)) := by
        have h1 : xs.drop n = (x :: xs).drop (n + 1) := by
          rw [List.drop_succ_cons]
        rw [h1, List.drop_drop]
        congr 1
        rw [Nat.succ_mul]
        omega
      rw [hdrop]
termination_by l => l.length
decreasing_by
  simp only [List.length_cons, List.length_drop]
  omega

theorem planChunks_flatten (cs : Nat) (h0 : 0 < cs) (l : List String) :
    (planChunks cs l).flatten = l := by
  cases cs with
  | zero => exact absurd h0 (by omega)
  | succ n => rw [planChunks_eq_chunksOf, chunksOf_flatten]

theorem mem_of_mem_planChunks (cs : Nat) (l : List String) (c : List String) (g : String)
    (h0 : 0 < cs) (hc : c ∈ planChunks cs l) (hg : g ∈ c) : g ∈ l := by
  rw [← planChunks_flatten cs h0 l]
  exact List.mem_flatten.mpr ⟨c, hc, hg⟩

theorem planChunks_length_le (cs : Nat) (l : List String) (c : List String)
    (hc : c ∈ planChunks cs l) : c.length ≤ cs := by
  simp only [planChunks, List.mem_map, List.mem_range] at hc
  obtain ⟨i, _, rfl⟩ := hc
  simp [List.length_take]

theorem planChunks_nil (cs : Nat) : planChunks cs [] = [] := by
  cases cs with
  | zero => rfl
  | succ n => simp [planChunks, Nat.div_eq_of_lt (by omega : n < n + 1)]

theorem chunksOf_ne_nil (n : Nat) (l : List String) (hl : l ≠ []) :
    chunksOf (n + 1) l ≠ [] := by
  cases l with
  | nil => exact absurd rfl hl
  | cons x xs => simp [chunksOf]

theorem chunksOf_dropLast_length (n : Nat) :
    ∀ l : List String, ∀ c ∈ (chunksOf (n + 1) l).dropLast, c.length = n + 1
  | [] => by simp [chunksOf]
  | x :: xs => by
    intro c hc
    by_cases ht : xs.drop n = []
    · simp only [chunksOf, ht] at hc
      simp at hc
    · have hne := chunksOf_ne_nil n (xs.drop n) ht
      have hlen : n < xs.length := by
        by_contra hcon
        push_neg at hcon
        exact ht (List.drop_eq_nil_of_le hcon)
      simp only [chunksOf] at hc
      rw [List.dropLast_cons_of_ne_nil hne] at hc
      rcases List.mem_cons.mp hc with rfl | hmem
      · simp only [List.length_take, List.length_cons]
        omega
      · exact chunksOf_dropLast_length n (xs.drop n) c hmem
termination_by l => l.length
decreasing_by
  simp only [List.length_cons, List.length_drop]
  omega

theorem planChunks_dropLast_length (cs : Nat) (h0 : 0 < cs) (l : List String) :
    ∀ c ∈ (planChunks cs l).dropLast, c.length = cs := by
  cases cs with
  | zero => exact absurd h0 (by omega)
  | succ n =>
    rw [planChunks_eq_chunksOf]
    exact chunksOf_dropLast_length n l

theorem filter_flatten_eq (p : String → Bool) :
    ∀ L : List (List String), (L.flatten).filter p = (L.map (List.filter p)).flatten
  | [] => rfl
  | c :: L => by simp [List.filter_append, filter_flatten_eq p L]

/-! ### `process_single_zip` lemmas -/

theorem process_single_zip_none (cs : Nat) (d : List String) (lt : String)
    (failing : String → Bool) :
    process_single_zip cs d lt none failing = ((0, 0), []) := rfl

theorem isEmpty_false_of_ne_nil {α : Type} {l : List α} (h : l ≠ []) : l.isEmpty = false := by
  cases l with
  | nil => exact absurd rfl h
  | cons a t => rfl

/-- In a run where no entry read/write raises, an archive extracts exactly
the entries whose names are not in the snapshot, and writes exactly their
target keys, in entry order. -/
theorem process_single_zip_noFail (cs : Nat) (d : List String) (lt : String)
    (files : List String) (failing : String → Bool)
    (h0 : 0 < cs) (hnf : ∀ g ∈ files, failing g = false) :
    process_single_zip cs d lt (some files) failing =
      ((files.length,
        (files.filter
          (fun g => decide (g ∉ list_extracted_files d (targetPrefixFor lt)))).length),
       (files.filter
          (fun g => decide (g ∉ list_extracted_files d (targetPrefixFor lt)))).map
         (fun g => targetPrefixFor lt ++ g)) := by
  by_cases hemp : files = []
  · subst hemp
    simp [process_single_zip]
  · have hne : files.isEmpty = false := isEmpty_false_of_ne_nil hemp
    unfold process_single_zip
    simp only [hne, Bool.false_eq_true, if_false]
    set P : String → Bool :=
      fun g => decide (g ∉ list_extracted_files d (targetPrefixFor lt)) with hP
    set key : String → String := fun g => targetPrefixFor lt ++ g with hkey
    have hchunk : ∀ c ∈ planChunks cs files,
        process_chunk (list_extracted_files d (targetPrefixFor lt)) (targetPrefixFor lt)
            failing c =
          ⟨(c.filter P).length, (c.filter P).map key, none⟩ := by
      intro c hc
      exact process_chunk_noFail _ _ failing c
        (fun g hg => hnf g (mem_of_mem_planChunks cs files c g h0 hc hg))
    rw [List.map_congr_left hchunk]
    have hflat : ((planChunks cs files).map (List.filter P)).flatten =
        files.filter P := by
      rw [← filter_flatten_eq, planChunks_flatten cs h0]
    have hcond : (((planChunks cs files).map
        (fun (c : List String) => (⟨(c.filter P).length, (c.filter P).map key, none⟩ : ChunkOutcome))).any
        (fun o => o.failed.isSome)) = false := by
      simp
    rw [hcond]
    simp only [Bool.false_eq_true, if_false]
    rw [List.map_map, List.map_map]
    have hext : ((fun o : ChunkOutcome => o.extracted) ∘
        (fun (c : List String) => (⟨(c.filter P).length, (c.filter P).map key, none⟩ : ChunkOutcome))) =
        fun c => (c.filter P).length := rfl
    have hwrt : ((fun o : ChunkOutcome => o.written) ∘
        (fun (c : List String) => (⟨(c.filter P).length, (c.filter P).map key, none⟩ : ChunkOutcome))) =
        fun c => (c.filter P).map key := rfl
    rw [hext, hwrt]
    have hsum : ((planChunks cs files).map (fun c => (c.filter P).length)).sum =
        (files.filter P).length := by
      have h1 : (planChunks cs files).map (fun c => (c.filter P).length) =
          ((planChunks cs files).map (List.filter P)).map List.length := by
        rw [List.map_map]
        rfl
      rw [h1, ← List.length_flatten, hflat]
    have hwr : (((planChunks cs files).map (fun c => (c.filter P).map key)).flatten) =
        (files.filter P).map key := by
      have h1 : (planChunks cs files).map (fun c => (c.filter P).map key) =
          ((planChunks cs files).map (List.filter P)).map (List.map key) := by
        rw [List.map_map]
        rfl
      rw [h1, ← List.map_flatten, hflat]
    rw [hsum, hwr]

/-- The keys an archive writes, independently of whether some chunk raised:
the writes of every chunk are collected because the thread pool drains
before the exception from `fut.result()` escapes the `with` block. -/
theorem process_single_zip_snd (cs : Nat) (d : List String) (lt : String)
    (files : List String) (failing : String → Bool) (hne : files ≠ []) :
    (process_single_zip cs d lt (some files) failing).2 =
      (((planChunks cs files).map
        (process_chunk (list_extracted_files d (targetPrefixFor lt)) (targetPrefixFor lt)
          failing)).map (fun o => o.written)).flatten := by
  unfold process_single_zip
  simp only [isEmpty_false_of_ne_nil hne, Bool.false_eq_true, if_false]
  split <;> rfl

/-- If collecting any chunk's result raises, the archive's reported counts
are zeroed (lines 206-208). -/
theorem process_single_zip_fst_of_failed (cs : Nat) (d : List String) (lt : String)
    (files : List String) (failing : String → Bool) (hne : files ≠ [])
    (hfail : (((planChunks cs files).map
        (process_chunk (list_extracted_files d (targetPrefixFor lt)) (targetPrefixFor lt)
          failing)).any (fun o => o.failed.isSome)) = true) :
    (process_single_zip cs d lt (some files) failing).1 = (0, 0) := by
  unfold process_single_zip
  simp only [isEmpty_false_of_ne_nil hne, Bool.false_eq_true, if_false]
  rw [if_pos hfail]

/-! ### `runArchives` lemmas -/

theorem runArchives_fst_length (cs : Nat) (acquire : String → Option (List String))
    (failing : String → Bool) :
    ∀ (l : List (String × String)) (d : List String),
      ((runArchives cs acquire failing l d).1).length = l.length
  | [], _ => rfl
  | (k, lt) :: rest, d => by
    simp [runArchives, runArchives_fst_length cs acquire failing rest]

theorem runArchives_map_keys (cs : Nat) (acquire : String → Option (List String))
    (failing : String → Bool) :
    ∀ (l : List (String × String)) (d : List String),
      ((runArchives cs acquire failing l d).1).map (fun r => (r.1, r.2.1)) = l
  | [], _ => rfl
  | (k, lt) :: rest, d => by
    simp [runArchives, runArchives_map_keys cs acquire failing rest]

theorem runArchives_dest_ext (cs : Nat) (acquire : String → Option (List String))
    (failing : String → Bool) :
    ∀ (l : List (String × String)) (d : List String),
      ∃ w, (runArchives cs acquire failing l d).2 = d ++ w
  | [], d => ⟨[], by simp [runArchives]⟩
  | (k, lt) :: rest, d => by
    obtain ⟨w, hw⟩ := runArchives_dest_ext cs acquire failing rest
      (d ++ (process_single_zip cs d lt (acquire k) failing).2)
    exact ⟨(process_single_zip cs d lt (acquire k) failing).2 ++ w, by
      simp only [runArchives]
      rw [hw, List.append_assoc]⟩

theorem runArchives_congr_acquire (cs : Nat) (failing : String → Bool)
    (acquire acquire' : String → Option (List String)) :
    ∀ (l : List (String × String)) (d : List String),
      (∀ p ∈ l, acquire' p.1 = acquire p.1) →
      runArchives cs acquire' failing l d = runArchives cs acquire failing l d
  | [], _, _ => rfl
  | (k, lt) :: rest, d, h => by
    have hk : acquire' k = acquire k := h (k, lt) (by simp)
    simp only [runArchives, hk]
    rw [runArchives_congr_acquire cs failing acquire acquire' rest _
      (fun p hp => h p (List.mem_cons_of_mem _ hp))]

theorem runArchives_append_take (cs : Nat) (acquire : String → Option (List String))
    (failing : String → Bool) :
    ∀ (l1 l2 : List (String × String)) (d : List String),
      ((runArchives cs acquire failing (l1 ++ l2) d).1).take l1.length =
        (runArchives cs acquire failing l1 d).1
  | [], _, _ => rfl
  | (k, lt) :: rest, l2, d => by
    simp only [List.cons_append, runArchives, List.length_cons, List.take_succ_cons]
    exact congrArg (List.cons _) (runArchives_append_take cs acquire failing rest l2 _)

theorem lef_mono_right (d w : List String) (pfx g : String)
    (h : g ∈ list_extracted_files w pfx) : g ∈ list_extracted_files (d ++ w) pfx := by
  rw [lef_append]
  exact List.mem_append_right _ h

/-- After a failure-free run of the whole catalog, every slash-free entry
name of every archive in the catalog is a member of the existing-entry
index computed from the final bucket state. -/
theorem run_covers (cs : Nat) (acquire : String → Option (List String)) (h0 : 0 < cs)
    (catalog : List (String × String)) :
    ∀ d : List String,
      (∀ p ∈ catalog, ∀ f ∈ ((acquire p.1).getD []), ('/' : Char) ∉ f.data) →
      ∀ p ∈ catalog, ∀ f ∈ ((acquire p.1).getD []),
        f ∈ list_extracted_files ((runArchives cs acquire noFail catalog d).2)
          (targetPrefixFor p.2) := by
  induction catalog with
  | nil =>
    intro d _ p hp
    exact absurd hp (List.not_mem_nil p)
  | cons q rest ih =>
    obtain ⟨k, lt⟩ := q
    intro d hflat p hp f hf
    simp only [runArchives]
    rcases List.mem_cons.mp hp with rfl | hmem
    · cases hacq : acquire k with
      | none =>
        have hf2 : f ∈ (acquire k).getD [] := hf
        rw [hacq] at hf2
        exact absurd hf2 (List.not_mem_nil f)
      | some files =>
        have hf' : f ∈ files := by
          have hf2 : f ∈ (acquire k).getD [] := hf
          rw [hacq] at hf2
          exact hf2
        have hflatf : ('/' : Char) ∉ f.data := hflat (k, lt) (List.mem_cons_self _ _) f hf
        obtain ⟨w, hw⟩ := runArchives_dest_ext cs acquire noFail rest
          (d ++ (process_single_zip cs d lt (some files) noFail).2)
        show f ∈ list_extracted_files
          ((runArchives cs acquire noFail rest
            (d ++ (process_single_zip cs d lt (some files) noFail).2)).2)
          (targetPrefixFor lt)
        rw [hw]
        by_cases hex : f ∈ list_extracted_files d (targetPrefixFor lt)
        · exact lef_mono _ w _ f (lef_mono d _ _ f hex)
        · have hkey : (targetPrefixFor lt ++ f) ∈
              (process_single_zip cs d lt (some files) noFail).2 := by
            rw [process_single_zip_noFail cs d lt files noFail h0 (fun g _ => rfl)]
            show (targetPrefixFor lt ++ f) ∈
              ((files.filter
                (fun g => decide (g ∉ list_extracted_files d (targetPrefixFor lt)))).map
                (fun g => targetPrefixFor lt ++ g))
            simp only [List.mem_map, List.mem_filter]
            exact ⟨f, ⟨hf', by simp [hex]⟩, rfl⟩
          have htr : trailingName (targetPrefixFor lt ++ f) = f := by
            have hpfx : targetPrefixFor lt =
                (extracted_base_path ++ "/" ++ extract_year ++ "/" ++ extract_month ++ "/"
                  ++ lt) ++ "/" := rfl
            rw [hpfx]
            exact trailingName_slash_append _ f hflatf
          have hmem2 : f ∈ list_extracted_files
              (process_single_zip cs d lt (some files) noFail).2 (targetPrefixFor lt) := by
            rw [← htr]
            exact mem_lef_of_write _ _ _ hkey (keyStartsWith_append _ f)
          exact lef_mono _ w _ f (lef_mono_right d _ _ f hmem2)
    · exact ih (d ++ (process_single_zip cs d lt (acquire k) noFail).2)
        (fun q hq => hflat q (List.mem_cons_of_mem _ hq)) p hmem f hf

/-- If the existing-entry index built from `d1` already covers every entry
name of every archive, a failure-free run started from any extension of
`d1` extracts nothing. -/
theorem run_all_skipped (cs : Nat) (acquire : String → Option (List String))
    (d1 : List String) (h0 : 0 < cs) :
    ∀ catalog : List (String × String),
      (∀ p ∈ catalog, ∀ f ∈ ((acquire p.1).getD []),
        f ∈ list_extracted_files d1 (targetPrefixFor p.2)) →
      ∀ w : List String, ∀ r ∈ (runArchives cs acquire noFail catalog (d1 ++ w)).1,
        r.2.2.2 = 0 := by
  intro catalog
  induction catalog with
  | nil =>
    intro _ w r hr
    exact absurd hr (List.not_mem_nil r)
  | cons q rest ih =>
    obtain ⟨k, lt⟩ := q
    intro hcov w r hr
    simp only [runArchives] at hr
    rcases List.mem_cons.mp hr with rfl | hmem
    · show (process_single_zip cs (d1 ++ w) lt (acquire k) noFail).1.2 = 0
      cases hacq : acquire k with
      | none => rfl
      | some files =>
        rw [process_single_zip_noFail cs (d1 ++ w) lt files noFail h0 (fun g _ => rfl)]
        show (files.filter
          (fun g => decide (g ∉ list_extracted_files (d1 ++ w) (targetPrefixFor lt)))).length
            = 0
        have hfil : files.filter
            (fun g => decide (g ∉ list_extracted_files (d1 ++ w) (targetPrefixFor lt)))
              = [] := by
          rw [List.filter_eq_nil_iff]
          intro g hg
          have hg0 : g ∈ (acquire k).getD [] := by
            rw [hacq]
            exact hg
          have hg1 : g ∈ list_extracted_files d1 (targetPrefixFor lt) :=
            hcov (k, lt) (List.mem_cons_self _ _) g hg0
          simp [lef_mono d1 w _ g hg1]
        rw [hfil]
        rfl
    · have hcov' : ∀ p ∈ rest, ∀ f ∈ ((acquire p.1).getD []),
          f ∈ list_extracted_files d1 (targetPrefixFor p.2) :=
        fun p hp f hf => hcov p (List.mem_cons_of_mem _ hp) f hf
      rw [List.append_assoc] at hmem
      exact ih hcov' (w ++ (process_single_zip cs (d1 ++ w) lt (acquire k) noFail).2) r hmem

/-! ## Claims -/

/-- Claim C1, counterexample.  The claim says a per-entry write failure is
recorded in the chunk's entryErrors and processing continues with the next
entry, never aborting the chunk or the archive.  In the code the chunk loop
has no per-entry exception handling: on the chunk `["e1", "e2"]` (empty
snapshot) where writing `e1` raises, the chunk stops at `e1` — nothing is
written (in particular `e2`, which would have been written had processing
continued, is never attempted), no error record exists, and the archive's
result is zeroed to `(0, 0)` by the outer handler. -/
theorem c1_counterexample :
    process_chunk [] (targetPrefixFor "100k") (fun s => s == "e1") ["e1", "e2"] =
      ⟨0, [], some "e1"⟩ ∧
    ((targetPrefixFor "100k" ++ "e2") ∉
      (process_chunk [] (targetPrefixFor "100k") (fun s => s == "e1")
        ["e1", "e2"]).written) ∧
    (process_single_zip 10000 [] "100k" (some ["e1", "e2"]) (fun s => s == "e1")).1 =
      (0, 0) := by
  refine ⟨by decide, by decide, by decide⟩

/-- Claim C1 as amended: a per-entry read/write failure ends its chunk at
the failing entry — later entries of the chunk are not attempted and no
error record is produced — while the batch driver still continues and
collects one result record for every archive of the catalog. -/
theorem c1_amended (existing : List String) (pfx : String) (failing : String → Bool)
    (f : String) (rest : List String) (cs : Nat)
    (catalog : List (String × String)) (acquire : String → Option (List String))
    (d : List String)
    (hm : f ∉ existing) (hf : failing f = true) :
    process_chunk existing pfx failing (f :: rest) = ⟨0, [], some f⟩ ∧
    ((runArchives cs acquire failing catalog d).1).length = catalog.length :=
  ⟨process_chunk_abort existing pfx failing f rest hm hf,
   runArchives_fst_length cs acquire failing catalog d⟩

/-- Witness for `c1_amended` at a concrete input. -/
theorem c1_amended_witness :
    ("g1" ∉ ["seen"]) ∧ ((fun s => s == "g1") "g1" = true) ∧
    (process_chunk ["seen"] (targetPrefixFor "100k") (fun s => s == "g1") ["g1", "g2"] =
        ⟨0, [], some "g1"⟩ ∧
      ((runArchives 10000 (fun _ => none) (fun s => s == "g1")
        [("k.zip", "100k")] []).1).length = [("k.zip", "100k")].length) :=
  ⟨by decide, by decide,
   c1_amended ["seen"] (targetPrefixFor "100k") (fun s => s == "g1") "g1" ["g2"] 10000
     [("k.zip", "100k")] (fun _ => none) [] (by decide) (by decide)⟩

/-- Claim C2, counterexample.  The snapshot stores only the text after the
final slash of each stored key, but the skip check compares the full entry
name, so an entry name containing a slash is re-extracted on every run: for
the catalog `[("z.zip", "100k")]` whose zip holds the single entry `a/b`,
the second run (started from the bucket the first run produced) reports
`extractedCount = 1`, not `0`. -/
theorem c2_counterexample :
    (process_all_zips 10000 [("z.zip", "100k")]
        (fun k => if k == "z.zip" then some ["a/b"] else none) noFail
        (process_all_zips 10000 [("z.zip", "100k")]
          (fun k => if k == "z.zip" then some ["a/b"] else none) noFail []).2).1 =
      some [("z.zip", "100k", 1, 1)] ∧
    ¬ (∀ r ∈ ((process_all_zips 10000 [("z.zip", "100k")]
        (fun k => if k == "z.zip" then some ["a/b"] else none) noFail
        (process_all_zips 10000 [("z.zip", "100k")]
          (fun k => if k == "z.zip" then some ["a/b"] else none) noFail []).2).1).getD [],
      r.2.2.2 = 0) := by
  refine ⟨by decide, by decide⟩

/-- Claim C2 as amended: when no entry name contains a slash and no entry
write raises, running the batch twice against an unchanged catalog yields
`extractedCount = 0` for every archive on the second run. -/
theorem c2_amended (cs : Nat) (catalog : List (String × String))
    (acquire : String → Option (List String)) (d0 : List String)
    (h0 : 0 < cs)
    (hflat : ∀ p ∈ catalog, ∀ f ∈ ((acquire p.1).getD []), ('/' : Char) ∉ f.data) :
    ∀ r ∈ ((process_all_zips cs catalog acquire noFail
        (process_all_zips cs catalog acquire noFail d0).2).1).getD [],
      r.2.2.2 = 0 := by
  by_cases hcat : catalog.isEmpty
  · intro r hr
    unfold process_all_zips at hr
    simp [hcat] at hr
  · unfold process_all_zips
    simp only [hcat, Bool.false_eq_true, if_false, Option.getD_some]
    intro r hr
    have hcov := run_covers cs acquire h0 catalog d0 hflat
    have hz := run_all_skipped cs acquire
      ((runArchives cs acquire noFail catalog d0).2) h0 catalog hcov []
    rw [List.append_nil] at hz
    exact hz r hr

/-- Witness for `c2_amended` at a concrete input. -/
theorem c2_amended_witness :
    0 < 10000 ∧
    (∀ p ∈ [("z.zip", "100k")],
      ∀ f ∈ (((fun k => if k == "z.zip" then some ["m1"] else none) :
        String → Option (List String)) p.1).getD [], ('/' : Char) ∉ f.data) ∧
    ∀ r ∈ ((process_all_zips 10000 [("z.zip", "100k")]
        (fun k => if k == "z.zip" then some ["m1"] else none) noFail
        (process_all_zips 10000 [("z.zip", "100k")]
          (fun k => if k == "z.zip" then some ["m1"] else none) noFail []).2).1).getD [],
      r.2.2.2 = 0 :=
  ⟨by decide, by decide,
   c2_amended 10000 [("z.zip", "100k")]
     (fun k => if k == "z.zip" then some ["m1"] else none) [] (by decide) (by decide)⟩

/-- Claim C3, counterexample.  A zero-valued result is indeed returned and
the batch continues, but a later archive's `extractedCount` is NOT
unchanged when the failed archive would have written entry names that the
later archive shares under the same destination prefix: with both archives
holding entry `e1` under log type `100k`, archive `b.zip` extracts `0` when
`a.zip` succeeds, but `1` when an acquisition failure is injected for
`a.zip`. -/
theorem c3_counterexample :
    (process_all_zips 10000 [("a.zip", "100k"), ("b.zip", "100k")]
        (fun k => if k == "a.zip" then some ["e1"] else
          if k == "b.zip" then some ["e1"] else none) noFail []).1 =
      some [("a.zip", "100k", 1, 1), ("b.zip", "100k", 1, 0)] ∧
    (process_all_zips 10000 [("a.zip", "100k"), ("b.zip", "100k")]
        (fun k => if k == "a.zip" then none else
          if k == "b.zip" then some ["e1"] else none) noFail []).1 =
      some [("a.zip", "100k", 0, 0), ("b.zip", "100k", 1, 1)] ∧
    ((((process_all_zips 10000 [("a.zip", "100k"), ("b.zip", "100k")]
        (fun k => if k == "a.zip" then none else
          if k == "b.zip" then some ["e1"] else none) noFail []).1).getD []).filter
        (fun r => r.1 == "b.zip")).map (fun r => r.2.2.2) ≠
      ((((process_all_zips 10000 [("a.zip", "100k"), ("b.zip", "100k")]
        (fun k => if k == "a.zip" then some ["e1"] else
          if k == "b.zip" then some ["e1"] else none) noFail []).1).getD []).filter
        (fun r => r.1 == "b.zip")).map (fun r => r.2.2.2) := by
  refine ⟨by decide, by decide, by decide⟩

/-- Claim C3 as amended: an acquisition failure yields the zero-valued
result `((0, 0), no writes)` without raising; the driver still produces a
record for every archive of the catalog; and the records of all archives
processed before the failure-injection point are unchanged (archives after
the failed one may observe a different existing-entry index and change). -/
theorem c3_amended (cs : Nat) (d : List String) (lt : String) (failing : String → Bool)
    (acquire acquire' : String → Option (List String))
    (before after : List (String × String))
    (hagree : ∀ p ∈ before, acquire' p.1 = acquire p.1) :
    process_single_zip cs d lt none failing = ((0, 0), []) ∧
    ((runArchives cs acquire' failing (before ++ after) d).1).length =
      (before ++ after).length ∧
    ((runArchives cs acquire' failing (before ++ after) d).1).take before.length =
      (runArchives cs acquire failing before d).1 :=
  ⟨process_single_zip_none cs d lt failing,
   runArchives_fst_length cs acquire' failing (before ++ after) d,
   by
     rw [runArchives_append_take cs acquire' failing before after d]
     exact congrArg Prod.fst
       (runArchives_congr_acquire cs failing acquire acquire' before d hagree)⟩

/-- Witness for `c3_amended` at a concrete input. -/
theorem c3_amended_witness :
    (∀ p ∈ [("b.zip", "100k")],
      ((fun k => if k == "a.zip" then none else
        if k == "b.zip" then some ["e1"] else none) : String → Option (List String)) p.1 =
      ((fun k => if k == "a.zip" then some ["e1"] else
        if k == "b.zip" then some ["e1"] else none) : String → Option (List String)) p.1) ∧
    (process_single_zip 10000 [] "100k" none noFail = ((0, 0), []) ∧
     ((runArchives 10000
        (fun k => if k == "a.zip" then none else
          if k == "b.zip" then some ["e1"] else none) noFail
        ([("b.zip", "100k")] ++ [("a.zip", "100k")]) []).1).length =
        ([("b.zip", "100k")] ++ [("a.zip", "100k")]).length ∧
     ((runArchives 10000
        (fun k => if k == "a.zip" then none else
          if k == "b.zip" then some ["e1"] else none) noFail
        ([("b.zip", "100k")] ++ [("a.zip", "100k")]) []).1).take
          [("b.zip", "100k")].length =
       (runArchives 10000
        (fun k => if k == "a.zip" then some ["e1"] else
          if k == "b.zip" then some ["e1"] else none) noFail
        [("b.zip", "100k")] []).1) :=
  ⟨by decide,
   c3_amended 10000 [] "100k" noFail
     (fun k => if k == "a.zip" then some ["e1"] else
       if k == "b.zip" then some ["e1"] else none)
     (fun k => if k == "a.zip" then none else
       if k == "b.zip" then some ["e1"] else none)
     [("b.zip", "100k")] [("a.zip", "100k")] (by decide)⟩

/-- Claim C4, counterexample.  With the empty snapshot and entry list
`["f1", "f2"]` (so `N = 2`) where writing `f1` raises, the chunk aborts at
`f1`, `f2` is never attempted, and the archive's counts are zeroed:
`extractedCount = 0` while exactly one chunk recorded a raising entry, so
`extractedCount + errorCount` is at most `1 ≠ 2` under any reading of
`errorCount` (the code itself keeps no error records at all). -/
theorem c4_counterexample :
    (process_single_zip 10000 [] "100k" (some ["f1", "f2"]) (fun s => s == "f1")).1.2 +
      raisedCount ((planChunks 10000 ["f1", "f2"]).map
        (process_chunk (list_extracted_files [] (targetPrefixFor "100k"))
          (targetPrefixFor "100k") (fun s => s == "f1"))) ≠
      (["f1", "f2"] : List String).length := by
  decide

/-- Claim C4 as amended: for an archive with `N` (possibly non-unique)
entry names processed against an empty existing-entry index, if no entry
read/write raises then `extractedCount = N` (and there are no errors); a
single raising entry instead zeroes both reported counts. -/
theorem c4_amended (cs : Nat) (d : List String) (lt : String) (files : List String)
    (failing : String → Bool) (h0 : 0 < cs)
    (hnf : ∀ g ∈ files, failing g = false)
    (hempty : list_extracted_files d (targetPrefixFor lt) = []) :
    (process_single_zip cs d lt (some files) failing).1 =
      (files.length, files.length) := by
  rw [process_single_zip_noFail cs d lt files failing h0 hnf, hempty]
  simp

/-- Witness for `c4_amended`: the spec's Scenario 1 (three entries, chunk
size 2, empty index) yields `(total, extracted) = (3, 3)`. -/
theorem c4_amended_witness :
    0 < 2 ∧ (∀ g ∈ (["p1", "p2", "p3"] : List String), noFail g = false) ∧
    list_extracted_files [] (targetPrefixFor "100k") = [] ∧
    (process_single_zip 2 [] "100k" (some ["p1", "p2", "p3"]) noFail).1 = (3, 3) :=
  ⟨by decide, by decide, by decide,
   c4_amended 2 [] "100k" ["p1", "p2", "p3"] noFail (by decide) (by decide) (by decide)⟩

/-- Claim C5: the planned chunks partition the entry-name list — their
concatenation in plan order reproduces the input exactly (hence the chunks
are contiguous and pairwise disjoint by position), every chunk except
possibly the last has length `chunk_size`, and no chunk exceeds
`chunk_size`. -/
theorem c5_partition (chunk_size : Nat) (all_files : List String) (h0 : 0 < chunk_size) :
    (planChunks chunk_size all_files).flatten = all_files ∧
    (∀ c ∈ (planChunks chunk_size all_files).dropLast, c.length = chunk_size) ∧
    (∀ c ∈ planChunks chunk_size all_files, c.length ≤ chunk_size) :=
  ⟨planChunks_flatten chunk_size h0 all_files,
   planChunks_dropLast_length chunk_size h0 all_files,
   fun c hc => planChunks_length_le chunk_size all_files c hc⟩

/-- Witness for `c5_partition`: the spec's example `[a, b, c]` with chunk
size `2` plans `[[a, b], [c]]`. -/
theorem c5_partition_witness :
    0 < 2 ∧ planChunks 2 ["a", "b", "c"] = [["a", "b"], ["c"]] ∧
    ((planChunks 2 ["a", "b", "c"]).flatten = ["a", "b", "c"] ∧
     (∀ c ∈ (planChunks 2 ["a", "b", "c"]).dropLast, c.length = 2) ∧
     (∀ c ∈ planChunks 2 ["a", "b", "c"], c.length ≤ 2)) :=
  ⟨by decide, by decide, c5_partition 2 ["a", "b", "c"] (by decide)⟩

/-- Claim C6, counterexample.  The claim's biconditional — an entry ends up
with no destination write and no error record exactly when its name is in
the snapshot — fails for entries following a raising one: on the chunk
`["x1", "x2"]` (empty snapshot) where writing `x1` raises, `x2` gets no
write and no error record (the chunk aborted before reaching it, and the
code records no errors anywhere) even though `x2` is not in the
snapshot. -/
theorem c6_counterexample :
    ¬ (("x2" ∈ list_extracted_files [] (targetPrefixFor "30k")) ↔
      ((targetPrefixFor "30k" ++ "x2") ∉
        (process_chunk (list_extracted_files [] (targetPrefixFor "30k"))
          (targetPrefixFor "30k") (fun s => s == "x1") ["x1", "x2"]).written)) := by
  decide

/-- Claim C6 as amended: in a run of the archive in which no entry
read/write raises, an entry's name is in the snapshot (the set of
trailing-name components of the objects stored under the destination
prefix) if and only if its target key is not written — i.e. skipped entries
are exactly the snapshot members. -/
theorem c6_amended (cs : Nat) (d : List String) (lt : String) (files : List String)
    (failing : String → Bool) (f : String)
    (h0 : 0 < cs) (hnf : ∀ g ∈ files, failing g = false) (hf : f ∈ files) :
    (f ∈ list_extracted_files d (targetPrefixFor lt) ↔
      (targetPrefixFor lt ++ f) ∉ (process_single_zip cs d lt (some files) failing).2) := by
  rw [process_single_zip_noFail cs d lt files failing h0 hnf]
  show f ∈ list_extracted_files d (targetPrefixFor lt) ↔
    (targetPrefixFor lt ++ f) ∉
      ((files.filter
        (fun g => decide (g ∉ list_extracted_files d (targetPrefixFor lt)))).map
        (fun g => targetPrefixFor lt ++ g))
  constructor
  · intro hE hmem
    simp only [List.mem_map, List.mem_filter] at hmem
    obtain ⟨g, ⟨hgf, hgP⟩, hkey⟩ := hmem
    have hg : g = f := string_append_cancel _ _ _ hkey
    subst hg
    simp only [decide_eq_true_eq] at hgP
    exact hgP hE
  · intro hnw
    by_contra hnE
    apply hnw
    simp only [List.mem_map, List.mem_filter]
    exact ⟨f, ⟨hf, by simp [hnE]⟩, rfl⟩

/-- Witness for `c6_amended` at a concrete input: entry `m1` is already
present under the prefix (its key's trailing name is `m1`), entry `m2` is
not, and indeed exactly `m2`'s key is written. -/
theorem c6_amended_witness :
    0 < 2 ∧ (∀ g ∈ (["m1", "m2"] : List String), noFail g = false) ∧
    ("m1" ∈ (["m1", "m2"] : List String)) ∧
    ("m1" ∈ list_extracted_files ["logs/extracted/2024/01/30k/m1"] (targetPrefixFor "30k") ↔
      (targetPrefixFor "30k" ++ "m1") ∉
        (process_single_zip 2 ["logs/extracted/2024/01/30k/m1"] "30k"
          (some ["m1", "m2"]) noFail).2) :=
  ⟨by decide, by decide, by decide,
   c6_amended 2 ["logs/extracted/2024/01/30k/m1"] "30k" ["m1", "m2"] noFail "m1"
     (by decide) (by decide) (by decide)⟩

/-- Claim C7, counterexample.  The claim says every run emits exactly one
summary at the end; but a run that finds no archives returns before the
summary block (lines 138-140) and emits none. -/
theorem c7_counterexample :
    (process_all_zips 10000 [] (fun _ => none) noFail []).1 = none := rfl

/-- Claim C7 as amended: a run that found at least one archive emits
exactly one summary, holding one record per archive of the catalog in
order; each record carries `(archiveKey, logicalType, totalEntries,
extractedCount)` only — the code computes no skipped count, no error count
and no batch-level aggregate totals. -/
theorem c7_amended (cs : Nat) (catalog : List (String × String))
    (acquire : String → Option (List String)) (failing : String → Bool)
    (d : List String) (hne : catalog ≠ []) :
    ∃ records, (process_all_zips cs catalog acquire failing d).1 = some records ∧
      records.map (fun r => (r.1, r.2.1)) = catalog ∧
      records.length = catalog.length := by
  refine ⟨(runArchives cs acquire failing catalog d).1, ?_, ?_, ?_⟩
  · unfold process_all_zips
    rw [isEmpty_false_of_ne_nil hne]
    simp
  · exact runArchives_map_keys cs acquire failing catalog d
  · exact runArchives_fst_length cs acquire failing catalog d

/-- Witness for `c7_amended` at a concrete input. -/
theorem c7_amended_witness :
    ([("z.zip", "30k")] : List (String × String)) ≠ [] ∧
    ∃ records,
      (process_all_zips 10000 [("z.zip", "30k")] (fun _ => none) noFail []).1 =
        some records ∧
      records.map (fun r => (r.1, r.2.1)) = [("z.zip", "30k")] ∧
      records.length = ([("z.zip", "30k")] : List (String × String)).length :=
  ⟨by decide, c7_amended 10000 [("z.zip", "30k")] (fun _ => none) noFail [] (by decide)⟩

/-- Claim C8: the existing-entry index is computed once from the bucket
state at the start of the archive (before chunk planning) and the skip
check of every chunk consults only that snapshot, so writes performed
during the archive's processing are invisible to sibling chunks: in a
failure-free run, a name not in the snapshot has its target key written
once per occurrence in the entry list — even when the occurrences fall in
different chunks and an earlier chunk's write has already stored that key. -/
theorem c8_snapshot (cs : Nat) (d : List String) (lt : String) (files : List String)
    (failing : String → Bool) (n : String)
    (h0 : 0 < cs) (hnf : ∀ g ∈ files, failing g = false)
    (hn : n ∉ list_extracted_files d (targetPrefixFor lt)) :
    List.count (targetPrefixFor lt ++ n)
      (process_single_zip cs d lt (some files) failing).2 =
      List.count n files := by
  rw [process_single_zip_noFail cs d lt files failing h0 hnf]
  have hcm := List.count_map_of_injective
    (files.filter (fun g => decide (g ∉ list_extracted_files d (targetPrefixFor lt))))
    (fun g => targetPrefixFor lt ++ g) (string_append_inj (targetPrefixFor lt)) n
  exact hcm.trans (List.count_filter (by simp [hn]))

/-- Witness for `c8_snapshot`: with chunk size 1 the two occurrences of
`dup` land in different (sibling) chunks, and both are written — the first
chunk's write is invisible to the second chunk's skip check. -/
theorem c8_snapshot_witness :
    0 < 1 ∧ (∀ g ∈ (["dup", "dup"] : List String), noFail g = false) ∧
    ("dup" ∉ list_extracted_files [] (targetPrefixFor "30k")) ∧
    planChunks 1 ["dup", "dup"] = [["dup"], ["dup"]] ∧
    List.count "dup" (["dup", "dup"] : List String) = 2 ∧
    List.count (targetPrefixFor "30k" ++ "dup")
      (process_single_zip 1 [] "30k" (some ["dup", "dup"]) noFail).2 =
      List.count "dup" ["dup", "dup"] :=
  ⟨by decide, by decide, by decide, by decide, by decide,
   c8_snapshot 1 [] "30k" ["dup", "dup"] noFail "dup" (by decide) (by decide) (by decide)⟩

/-- Claim C10: when collecting some chunk's result raises, the archive's
reported counts are zeroed to `(0, 0)`, yet the keys written by any chunk
whose entries all succeeded are still among the archive's writes — the
destination is not rolled back. -/
theorem c10_no_rollback (cs : Nat) (d : List String) (lt : String) (files : List String)
    (failing : String → Bool) (c : List String)
    (hc : c ∈ planChunks cs files)
    (hcnf : ∀ g ∈ c, failing g = false)
    (hfail : (((planChunks cs files).map
        (process_chunk (list_extracted_files d (targetPrefixFor lt)) (targetPrefixFor lt)
          failing)).any (fun o => o.failed.isSome)) = true) :
    (process_single_zip cs d lt (some files) failing).1 = (0, 0) ∧
    ∀ f ∈ c, f ∉ list_extracted_files d (targetPrefixFor lt) →
      (targetPrefixFor lt ++ f) ∈ (process_single_zip cs d lt (some files) failing).2 := by
  have hne : files ≠ [] := by
    intro h
    subst h
    rw [planChunks_nil] at hc
    exact absurd hc (List.not_mem_nil c)
  refine ⟨process_single_zip_fst_of_failed cs d lt files failing hne hfail, ?_⟩
  intro f hfc hnE
  rw [process_single_zip_snd cs d lt files failing hne]
  have hout := process_chunk_noFail (list_extracted_files d (targetPrefixFor lt))
    (targetPrefixFor lt) failing c hcnf
  apply List.mem_flatten.mpr
  refine ⟨(process_chunk (list_extracted_files d (targetPrefixFor lt)) (targetPrefixFor lt)
      failing c).written, ?_, ?_⟩
  · exact List.mem_map.mpr
      ⟨process_chunk (list_extracted_files d (targetPrefixFor lt)) (targetPrefixFor lt)
        failing c, List.mem_map.mpr ⟨c, hc, rfl⟩, rfl⟩
  · rw [hout]
    simp only [List.mem_map, List.mem_filter]
    exact ⟨f, ⟨hfc, by simp [hnE]⟩, rfl⟩

/-- Witness for `c10_no_rollback`: entries `w1`, `w2` in chunks of size 1;
writing `w2` raises, so the archive reports `(0, 0)`, yet `w1`'s key was
written and remains among the archive's writes. -/
theorem c10_no_rollback_witness :
    (["w1"] ∈ planChunks 1 ["w1", "w2"]) ∧
    (∀ g ∈ (["w1"] : List String), (fun s => s == "w2") g = false) ∧
    ((((planChunks 1 ["w1", "w2"]).map
        (process_chunk (list_extracted_files [] (targetPrefixFor "100k"))
          (targetPrefixFor "100k") (fun s => s == "w2"))).any
        (fun o => o.failed.isSome)) = true) ∧
    ((process_single_zip 1 [] "100k" (some ["w1", "w2"]) (fun s => s == "w2")).1 =
        (0, 0) ∧
      ∀ f ∈ (["w1"] : List String),
        f ∉ list_extracted_files [] (targetPrefixFor "100k") →
        (targetPrefixFor "100k" ++ f) ∈
          (process_single_zip 1 [] "100k" (some ["w1", "w2"]) (fun s => s == "w2")).2) :=
  ⟨by decide, by decide, by decide,
   c10_no_rollback 1 [] "100k" ["w1", "w2"] (fun s => s == "w2") ["w1"]
     (by decide) (by decide) (by decide)⟩

end RawToS3
